import Mathlib

/-!
# Verification of the population-preparation and metric-aggregation core
  (`exps_e2e.py`)

Shallow embedding of the core functions of the repository:

* `subsample_const_size` — stratified bounded subsampling of a labeled
  population (per-class cap, numpy `np.random.choice(..., replace=False)`
  modelled by an abstract chooser satisfying the without-replacement
  contract `ValidChooser`);
* `define_sampler` — inverse-frequency draw-weight construction, with the
  optional `hierarchy_match` category map (string-keyed lookup of the
  label, `KeyError` on a missing entry), weights over exact rationals;
* `get_metrics` / the top-level aggregation of `main` — single-row metric
  tables merged column-wise and stamped with `dataset`/`model`/`params`
  metadata, then concatenated row-wise across datasets.

Randomness (`np.random.choice`) is abstracted by a chooser parameter; the
external metric evaluator `eval_average_metrics_wstd` (in `lee/`, outside
`src/`) is modelled from the spec as an opaque single-row result.
-/

/-- A labeled item (`crop`): an opaque payload plus the integer `_label`
field read by the code. -/
structure Crop where
  label : Int
  payload : Nat
deriving DecidableEq, Repr

/-- Sorted insertion without duplication: one step of building
`np.unique`'s sorted array of distinct values. -/
def insertSorted (x : Int) : List Int → List Int
  | [] => [x]
  | y :: ys => if x < y then x :: y :: ys
               else if x = y then y :: ys
               else y :: insertSorted x ys

/-- `np.unique`: the sorted list of distinct values of a list. -/
def npUnique (l : List Int) : List Int := l.foldr insertSorted []

theorem mem_insertSorted {x z : Int} {l : List Int} :
    z ∈ insertSorted x l ↔ z = x ∨ z ∈ l := by
  induction l with
  | nil => simp [insertSorted]
  | cons y ys ih =>
    by_cases hlt : x < y
    · simp [insertSorted, hlt]
    · by_cases heq : x = y
      · subst heq
        simp [insertSorted, hlt]
      · simp [insertSorted, hlt, heq, ih]
        tauto

theorem sorted_insertSorted {x : Int} {l : List Int}
    (h : l.Sorted (· < ·)) : (insertSorted x l).Sorted (· < ·) := by
  induction l with
  | nil => simp [insertSorted]
  | cons y ys ih =>
    rw [List.sorted_cons] at h
    by_cases hlt : x < y
    · rw [insertSorted, if_pos hlt, List.sorted_cons]
      refine ⟨?_, List.sorted_cons.2 h⟩
      intro b hb
      rcases List.mem_cons.1 hb with rfl | hb
      · exact hlt
      · exact hlt.trans (h.1 b hb)
    · by_cases heq : x = y
      · rw [insertSorted, if_neg hlt, if_pos heq, List.sorted_cons]
        exact h
      · rw [insertSorted, if_neg hlt, if_neg heq, List.sorted_cons]
        refine ⟨?_, ih h.2⟩
        intro b hb
        rcases mem_insertSorted.1 hb with rfl | hb
        · omega
        · exact h.1 b hb

theorem sorted_npUnique (l : List Int) : (npUnique l).Sorted (· < ·) := by
  induction l with
  | nil => simp [npUnique]
  | cons x xs ih => exact sorted_insertSorted ih

theorem mem_npUnique {z : Int} {l : List Int} :
    z ∈ npUnique l ↔ z ∈ l := by
  induction l with
  | nil => simp [npUnique]
  | cons x xs ih =>
    show z ∈ insertSorted x (npUnique xs) ↔ _
    rw [mem_insertSorted, ih]
    simp

theorem nodup_npUnique (l : List Int) : (npUnique l).Nodup :=
  (sorted_npUnique l).imp (fun h => ne_of_lt h)

/-- `np.argwhere(labels == lbl).flatten()` generalised: the ascending list
of positions at which a predicate holds. -/
def findIdxs (p : α → Bool) : List α → List Nat
  | [] => []
  | a :: l => if p a then 0 :: (findIdxs p l).map (· + 1)
              else (findIdxs p l).map (· + 1)

theorem length_findIdxs (p : α → Bool) (l : List α) :
    (findIdxs p l).length = l.countP p := by
  induction l with
  | nil => simp [findIdxs]
  | cons a l ih =>
    by_cases h : p a <;> simp [findIdxs, h, ih, List.countP_cons]

theorem nodup_findIdxs (p : α → Bool) (l : List α) :
    (findIdxs p l).Nodup := by
  induction l with
  | nil => simp [findIdxs]
  | cons a l ih =>
    have hmap : ((findIdxs p l).map (· + 1)).Nodup :=
      ih.map (fun _ _ h => by omega)
    by_cases h : p a
    · simp only [findIdxs, if_pos h]
      refine List.nodup_cons.2 ⟨?_, hmap⟩
      intro hmem
      rcases List.mem_map.1 hmem with ⟨i, _, hi⟩
      omega
    · simpa [findIdxs, if_neg h] using hmap

theorem getElem?_of_mem_findIdxs {p : α → Bool} {l : List α} {i : Nat}
    (h : i ∈ findIdxs p l) : ∃ x, l[i]? = some x ∧ p x := by
  induction l generalizing i with
  | nil => simp [findIdxs] at h
  | cons a l ih =>
    by_cases hp : p a
    · simp only [findIdxs, if_pos hp, List.mem_cons, List.mem_map] at h
      rcases h with h | ⟨j, hj, hij⟩
      · exact ⟨a, by simp [h], hp⟩
      · rcases ih hj with ⟨x, hx, hpx⟩
        exact ⟨x, by simpa [← hij] using hx, hpx⟩
    · simp only [findIdxs, if_neg hp, List.mem_map] at h
      rcases h with ⟨j, hj, hij⟩
      rcases ih hj with ⟨x, hx, hpx⟩
      exact ⟨x, by simpa [← hij] using hx, hpx⟩

theorem filterMap_getElem?_findIdxs (p : α → Bool) (l : List α) :
    (findIdxs p l).filterMap (fun i => l[i]?) = l.filter p := by
  induction l with
  | nil => simp [findIdxs]
  | cons a l ih =>
    have hmap : ((findIdxs p l).map (· + 1)).filterMap
        (fun i => (a :: l)[i]?) = (findIdxs p l).filterMap (fun i => l[i]?) := by
      rw [List.filterMap_map]
      congr 1
      funext i
      simp [Function.comp]
    by_cases h : p a
    · rw [findIdxs, if_pos h, List.filterMap_cons]
      simp only [List.getElem?_cons_zero]
      rw [hmap, ih, List.filter_cons_of_pos h]
    · rw [findIdxs, if_neg h, hmap, ih, List.filter_cons_of_neg (by simp [h])]

theorem findIdxs_map (p : β → Bool) (g : α → β) (l : List α) :
    findIdxs p (l.map g) = findIdxs (fun a => p (g a)) l := by
  induction l with
  | nil => simp [findIdxs]
  | cons a l ih => by_cases h : p (g a) <;> simp [findIdxs, h, ih]

/-- The contract of `np.random.choice(idxs, n, replace=False)` for
`n ≤ len(idxs)`: the draw returns `n` pairwise-distinct elements of
`idxs` (without replacement).  The actual random draw is abstracted by
any function satisfying this contract. -/
def ValidChooser (choose : List Nat → Nat → List Nat) : Prop :=
  ∀ idxs n, n ≤ idxs.length → idxs.Nodup →
    (choose idxs n).length = n ∧ (choose idxs n).Nodup ∧
    ∀ i ∈ choose idxs n, i ∈ idxs

/-- A concrete chooser (take the first `n` indices), used to instantiate
the abstract random draw on concrete inputs. -/
def takeChooser (idxs : List Nat) (n : Nat) : List Nat := idxs.take n

theorem takeChooser_valid : ValidChooser takeChooser := by
  intro idxs n hn hnd
  refine ⟨by simpa [takeChooser] using hn, ?_, ?_⟩
  · exact hnd.sublist (List.take_sublist n idxs)
  · intro i hi
    exact List.mem_of_mem_take hi

/-- The indices chosen for one label when the target size is the
natural number `n`: all of `np.argwhere(labels == lbl)` when the class
count is below `n`, otherwise a without-replacement draw of `n` of them. -/
def chosenIdxs (choose : List Nat → Nat → List Nat) (labels : List Int)
    (n : Nat) (lbl : Int) : List Nat :=
  let indices := findIdxs (fun x => x == lbl) labels
  if indices.length < n then indices else choose indices n

/-- One iteration of the `for lbl in np.unique(labels)` loop of
`subsample_const_size`: `indices = np.argwhere(labels == lbl)`, the
`(labels == lbl).sum() < size` test, and `crops[chosen_indices]`.
`np.random.choice` raises `ValueError` on a negative `size`. -/
def subsampleLabel (choose : List Nat → Nat → List Nat) (crops : List Crop)
    (labels : List Int) (size : Int) (lbl : Int) : Except String (List Crop) :=
  let indices := findIdxs (fun x => x == lbl) labels
  if (indices.length : Int) < size then
    .ok (indices.filterMap (fun i => crops[i]?))
  else if size < 0 then
    .error "ValueError: negative dimensions are not allowed"
  else
    .ok ((choose indices size.toNat).filterMap (fun i => crops[i]?))

/-- `subsample_const_size(crops, size)`: per-label stratified subsampling,
concatenating the per-label selections over `np.unique(labels)` in order. -/
def subsample_const_size (choose : List Nat → Nat → List Nat)
    (crops : List Crop) (size : Int) : Except String (List Crop) := do
  let labels := crops.map (·.label)
  let segs ← (npUnique labels).mapM (subsampleLabel choose crops labels size)
  return segs.flatten

theorem subsampleLabel_ok (choose : List Nat → Nat → List Nat)
    (crops : List Crop) (labels : List Int) {size : Int} (hs : 0 ≤ size)
    (lbl : Int) :
    subsampleLabel choose crops labels size lbl =
      .ok ((chosenIdxs choose labels size.toNat lbl).filterMap
        (fun i => crops[i]?)) := by
  unfold subsampleLabel chosenIdxs
  by_cases h : ((findIdxs (fun x => x == lbl) labels).length : Int) < size
  · have h' : (findIdxs (fun x => x == lbl) labels).length < size.toNat := by
      omega
    simp [h, h']
  · have h' : ¬ (findIdxs (fun x => x == lbl) labels).length < size.toNat := by
      omega
    have hneg : ¬ size < 0 := by omega
    simp [h, h', hneg]

theorem mapM_ok_of_forall {α β : Type} (f : α → Except String β) (g : α → β) :
    ∀ l : List α, (∀ a ∈ l, f a = .ok (g a)) → l.mapM f = .ok (l.map g) := by
  intro l
  induction l with
  | nil => intro _; rfl
  | cons a l ih =>
    intro h
    rw [List.mapM_cons, h a (by simp), ih (fun b hb => h b (by simp [hb]))]
    rfl

theorem mapM_error_of_exists {α β : Type} (f : α → Except String β) :
    ∀ l : List α, (∃ a ∈ l, ∃ e, f a = .error e) →
      ∃ e, l.mapM f = .error e := by
  intro l
  induction l with
  | nil => rintro ⟨a, ha, _⟩; simp at ha
  | cons a l ih =>
    rintro ⟨b, hb, e, he⟩
    rw [List.mapM_cons]
    rcases List.mem_cons.1 hb with rfl | hb
    · exact ⟨e, by rw [he]; rfl⟩
    · cases hfa : f a with
      | error e' => exact ⟨e', rfl⟩
      | ok x =>
        rcases ih ⟨b, hb, e, he⟩ with ⟨e', he'⟩
        refine ⟨e', ?_⟩
        show ((l.mapM f) >>= fun ys => pure (x :: ys)) = _
        rw [he']
        rfl

theorem countP_label (crops : List Crop) (lbl : Int) :
    (crops.map (·.label)).countP (fun x => x == lbl)
      = crops.countP (fun c => c.label == lbl) := by
  rw [List.countP_map]
  rfl

theorem chosenIdxs_spec (choose : List Nat → Nat → List Nat)
    (hch : ValidChooser choose) (labels : List Int) (n : Nat) (lbl : Int) :
    (chosenIdxs choose labels n lbl).length
        = min (labels.countP (fun x => x == lbl)) n ∧
    (chosenIdxs choose labels n lbl).Nodup ∧
    ∀ i ∈ chosenIdxs choose labels n lbl,
      i ∈ findIdxs (fun x => x == lbl) labels := by
  have hidef : chosenIdxs choose labels n lbl =
      if (findIdxs (fun x => x == lbl) labels).length < n
      then findIdxs (fun x => x == lbl) labels
      else choose (findIdxs (fun x => x == lbl) labels) n := rfl
  by_cases h : (findIdxs (fun x => x == lbl) labels).length < n
  · rw [hidef, if_pos h]
    refine ⟨?_, nodup_findIdxs _ _, fun i hi => hi⟩
    rw [length_findIdxs] at h ⊢
    omega
  · rcases hch (findIdxs (fun x => x == lbl) labels) n (by omega)
      (nodup_findIdxs _ _) with ⟨hlen, hnd, hsub⟩
    rw [hidef, if_neg h]
    refine ⟨?_, hnd, hsub⟩
    rw [length_findIdxs] at h
    rw [hlen]
    omega

theorem length_filterMap_getElem? {crops : List Crop} :
    ∀ {idxs : List Nat}, (∀ i ∈ idxs, ∃ c, crops[i]? = some c) →
      (idxs.filterMap (fun i => crops[i]?)).length = idxs.length := by
  intro idxs
  induction idxs with
  | nil => intro _; rfl
  | cons i idxs ih =>
    intro h
    rcases h i (by simp) with ⟨c, hc⟩
    rw [List.filterMap_cons, hc]
    simp [ih (fun j hj => h j (by simp [hj]))]

theorem mem_segment_label {crops : List Crop} {lbl : Int} {idxs : List Nat}
    (hsub : ∀ i ∈ idxs, i ∈ findIdxs (fun c => c.label == lbl) crops) :
    ∀ c ∈ idxs.filterMap (fun i => crops[i]?), c.label = lbl := by
  intro c hc
  rcases List.mem_filterMap.1 hc with ⟨i, hi, hget⟩
  rcases getElem?_of_mem_findIdxs (hsub i hi) with ⟨x, hx, hpx⟩
  rw [hget] at hx
  cases hx
  exact eq_of_beq hpx

theorem valid_of_mem_findIdxs {crops : List Crop} {lbl : Int} {idxs : List Nat}
    (hsub : ∀ i ∈ idxs, i ∈ findIdxs (fun c => c.label == lbl) crops) :
    ∀ i ∈ idxs, ∃ c, crops[i]? = some c := by
  intro i hi
  rcases getElem?_of_mem_findIdxs (hsub i hi) with ⟨x, hx, _⟩
  exact ⟨x, hx⟩

theorem sum_map_eq_of_single {L : List Int} {lbl : Int} (v : Int → Nat)
    (hnd : L.Nodup) (hmem : lbl ∈ L)
    (hz : ∀ l2 ∈ L, l2 ≠ lbl → v l2 = 0) :
    (L.map v).sum = v lbl := by
  induction L with
  | nil => simp at hmem
  | cons a L ih =>
    rw [List.nodup_cons] at hnd
    rcases List.mem_cons.1 hmem with rfl | hmem
    · have hrest : (L.map v).sum = 0 := by
        apply List.sum_eq_zero
        intro x hx
        rcases List.mem_map.1 hx with ⟨l2, hl2, rfl⟩
        exact hz l2 (List.mem_cons_of_mem _ hl2)
          (fun h => hnd.1 (h ▸ hl2))
      simp [hrest]
    · have hva : v a = 0 :=
        hz a (by simp) (fun h => hnd.1 (h ▸ hmem))
      rw [List.map_cons, List.sum_cons, hva,
        ih hnd.2 hmem (fun l2 h2 => hz l2 (List.mem_cons_of_mem _ h2))]
      omega

theorem flatten_map_perm {g h : Int → List Crop} :
    ∀ L : List Int, (∀ x ∈ L, (g x).Perm (h x)) →
      ((L.map g).flatten).Perm ((L.map h).flatten) := by
  intro L
  induction L with
  | nil => intro _; exact List.Perm.refl _
  | cons a L ih =>
    intro hp
    simp only [List.map_cons, List.flatten_cons]
    exact (hp a (by simp)).append (ih fun x hx => hp x (by simp [hx]))

theorem count_flatten_filter (crops : List Crop) (c0 : Crop) :
    ∀ L : List Int, L.Nodup →
      ((L.map (fun lbl => crops.filter (fun c => c.label == lbl))).flatten).count c0
        = if c0.label ∈ L then crops.count c0 else 0 := by
  intro L
  induction L with
  | nil => simp
  | cons a L ih =>
    intro hnd
    rw [List.nodup_cons] at hnd
    simp only [List.map_cons, List.flatten_cons, List.count_append]
    rw [ih hnd.2]
    by_cases ha : c0.label = a
    · subst ha
      have h1 : (crops.filter (fun c => c.label == c0.label)).count c0
          = crops.count c0 := List.count_filter (by simp)
      have h2 : c0.label ∉ L := hnd.1
      rw [h1]
      simp [h2]
    · have h1 : (crops.filter (fun c => c.label == a)).count c0 = 0 := by
        rw [List.count_eq_zero]
        intro hmem
        exact ha (by simpa using (List.mem_filter.1 hmem).2)
      have h2 : (c0.label ∈ a :: L) ↔ c0.label ∈ L := by
        simp [List.mem_cons, ha]
      rw [h1]
      simp only [h2]
      omega

/-- The crops selected for one label (`crops[chosen_indices]`). -/
def subsampleSeg (choose : List Nat → Nat → List Nat) (crops : List Crop)
    (n : Nat) (lbl : Int) : List Crop :=
  (chosenIdxs choose (crops.map (·.label)) n lbl).filterMap (fun i => crops[i]?)

/-- The full output of `subsample_const_size` on a nonnegative size:
per-label selections concatenated over `np.unique(labels)`. -/
def subsampleOut (choose : List Nat → Nat → List Nat) (crops : List Crop)
    (n : Nat) : List Crop :=
  ((npUnique (crops.map (·.label))).map (subsampleSeg choose crops n)).flatten

theorem subsample_const_size_eq_ok (choose : List Nat → Nat → List Nat)
    (crops : List Crop) {size : Int} (hs : 0 ≤ size) :
    subsample_const_size choose crops size
      = .ok (subsampleOut choose crops size.toNat) := by
  simp only [subsample_const_size, subsampleOut]
  rw [mapM_ok_of_forall (subsampleLabel choose crops (crops.map (·.label)) size)
    (subsampleSeg choose crops size.toNat) (npUnique (crops.map (·.label)))
    (fun lbl _ => subsampleLabel_ok choose crops (crops.map (·.label)) hs lbl)]
  rfl

theorem subsampleSeg_sub (choose : List Nat → Nat → List Nat)
    (hch : ValidChooser choose) (crops : List Crop) (n : Nat) (lbl : Int) :
    ∀ i ∈ chosenIdxs choose (crops.map (·.label)) n lbl,
      i ∈ findIdxs (fun c => c.label == lbl) crops := by
  intro i hi
  have := (chosenIdxs_spec choose hch (crops.map (·.label)) n lbl).2.2 i hi
  rwa [findIdxs_map] at this

theorem subsampleSeg_countP (choose : List Nat → Nat → List Nat)
    (hch : ValidChooser choose) (crops : List Crop) (n : Nat) (lbl l2 : Int) :
    (subsampleSeg choose crops n l2).countP (fun c => c.label == lbl)
      = if l2 = lbl
        then min (crops.countP (fun c => c.label == lbl)) n
        else 0 := by
  have hmem := mem_segment_label (subsampleSeg_sub choose hch crops n l2)
  by_cases h : l2 = lbl
  · subst h
    rw [if_pos rfl]
    have hlen : (subsampleSeg choose crops n l2).countP (fun c => c.label == l2)
        = (subsampleSeg choose crops n l2).length := by
      rw [List.countP_eq_length]
      intro c hc
      simp [hmem c hc]
    rw [hlen]
    unfold subsampleSeg
    rw [length_filterMap_getElem?
      (valid_of_mem_findIdxs (subsampleSeg_sub choose hch crops n l2)),
      (chosenIdxs_spec choose hch (crops.map (·.label)) n l2).1,
      countP_label]
  · rw [if_neg h]
    rw [List.countP_eq_zero]
    intro c hc
    simp [hmem c hc, h]

/-- Per-label output count of the subsampling loop: exactly
`min(count(label), n)`. -/
theorem subsampleOut_countP (choose : List Nat → Nat → List Nat)
    (hch : ValidChooser choose) (crops : List Crop) (n : Nat) (lbl : Int)
    (hmem : lbl ∈ crops.map (·.label)) :
    (subsampleOut choose crops n).countP (fun c => c.label == lbl)
      = min (crops.countP (fun c => c.label == lbl)) n := by
  unfold subsampleOut
  rw [List.countP_flatten, List.map_map]
  have hsingle := @sum_map_eq_of_single (npUnique (crops.map (·.label))) lbl
    (fun l2 => (subsampleSeg choose crops n l2).countP (fun c => c.label == lbl))
    (nodup_npUnique _) (mem_npUnique.2 hmem)
    (fun l2 _ h2 => by
      show (subsampleSeg choose crops n l2).countP (fun c => c.label == lbl) = 0
      rw [subsampleSeg_countP choose hch crops n lbl l2, if_neg h2])
  simp only [Function.comp_def]
  rw [hsingle]
  show (subsampleSeg choose crops n lbl).countP (fun c => c.label == lbl) = _
  rw [subsampleSeg_countP choose hch crops n lbl lbl, if_pos rfl]

theorem subsampleOut_perm (choose : List Nat → Nat → List Nat)
    (hch : ValidChooser choose) (crops : List Crop) (n : Nat)
    (hall : ∀ lbl ∈ crops.map (·.label),
      crops.countP (fun c => c.label == lbl) ≤ n) :
    (subsampleOut choose crops n).Perm crops := by
  have hperm_idx : ∀ l2 ∈ npUnique (crops.map (·.label)),
      (chosenIdxs choose (crops.map (·.label)) n l2).Perm
        (findIdxs (fun x => x == l2) (crops.map (·.label))) := by
    intro l2 hl2
    have hidef : chosenIdxs choose (crops.map (·.label)) n l2 =
        if (findIdxs (fun x => x == l2) (crops.map (·.label))).length < n
        then findIdxs (fun x => x == l2) (crops.map (·.label))
        else choose (findIdxs (fun x => x == l2) (crops.map (·.label))) n := rfl
    by_cases h : (findIdxs (fun x => x == l2) (crops.map (·.label))).length < n
    · rw [hidef, if_pos h]
    · rcases hch (findIdxs (fun x => x == l2) (crops.map (·.label))) n
        (by omega) (nodup_findIdxs _ _) with ⟨hlen, hnd, hsub⟩
      rw [hidef, if_neg h]
      refine (List.Nodup.subperm hnd (fun {i} hi => hsub i hi)).perm_of_length_le ?_
      rw [hlen, length_findIdxs, countP_label]
      exact hall l2 (mem_npUnique.1 hl2)
  have hseg : ∀ l2 ∈ npUnique (crops.map (·.label)),
      (subsampleSeg choose crops n l2).Perm
        (crops.filter (fun c => c.label == l2)) := by
    intro l2 hl2
    have h1 : (subsampleSeg choose crops n l2).Perm
        ((findIdxs (fun x => x == l2) (crops.map (·.label))).filterMap
          (fun i => crops[i]?)) :=
      (hperm_idx l2 hl2).filterMap _
    refine h1.trans ?_
    rw [findIdxs_map]
    exact (filterMap_getElem?_findIdxs (fun c => c.label == l2) crops) ▸
      List.Perm.refl _
  have hfinal : (((npUnique (crops.map (·.label))).map
      (fun l2 => crops.filter (fun c => c.label == l2))).flatten).Perm crops := by
    rw [List.perm_iff_count]
    intro c0
    rw [count_flatten_filter crops c0 _ (nodup_npUnique _)]
    by_cases hc0 : c0.label ∈ npUnique (crops.map (·.label))
    · simp [hc0]
    · have hout : c0 ∉ crops := by
        intro hmem
        exact hc0 (mem_npUnique.2 (List.mem_map.2 ⟨c0, hmem, rfl⟩))
      rw [if_neg hc0, List.count_eq_zero.2 hout]
  exact (flatten_map_perm _ hseg).trans hfinal

/-- Claim C1 (stratified subsampling bound): for every chooser satisfying
the `np.random.choice` without-replacement contract and every
nonnegative target size, `subsample_const_size` succeeds; the output
contains exactly `min(C, S)` items of each present label `L` (where `C`
is `L`'s count in the input), and when `S` is at least every label's
count the output is a permutation (same multiset) of the input. -/
theorem subsample_const_size_stratified_bound
    (choose : List Nat → Nat → List Nat) (hch : ValidChooser choose)
    (crops : List Crop) (size : Int) (hs : 0 ≤ size) :
    ∃ out, subsample_const_size choose crops size = .ok out ∧
      (∀ lbl ∈ crops.map (·.label),
        out.countP (fun c => c.label == lbl)
          = min (crops.countP (fun c => c.label == lbl)) size.toNat) ∧
      ((∀ lbl ∈ crops.map (·.label),
          (crops.countP (fun c => c.label == lbl) : Int) ≤ size) →
        out.Perm crops) := by
  refine ⟨subsampleOut choose crops size.toNat,
    subsample_const_size_eq_ok choose crops hs, ?_, ?_⟩
  · intro lbl hmem
    exact subsampleOut_countP choose hch crops size.toNat lbl hmem
  · intro hall
    exact subsampleOut_perm choose hch crops size.toNat
      (fun lbl hmem => by have := hall lbl hmem; omega)

theorem subsample_const_size_stratified_bound_witness :
    (0:Int) ≤ 1 ∧
    ∃ out, subsample_const_size takeChooser
        [⟨0,0⟩, ⟨0,1⟩, ⟨1,2⟩] 1 = .ok out ∧
      (∀ lbl ∈ ([⟨0,0⟩, ⟨0,1⟩, ⟨1,2⟩] : List Crop).map (·.label),
        out.countP (fun c => c.label == lbl)
          = min (([⟨0,0⟩, ⟨0,1⟩, ⟨1,2⟩] : List Crop).countP
              (fun c => c.label == lbl)) (1:Int).toNat) ∧
      ((∀ lbl ∈ ([⟨0,0⟩, ⟨0,1⟩, ⟨1,2⟩] : List Crop).map (·.label),
          (([⟨0,0⟩, ⟨0,1⟩, ⟨1,2⟩] : List Crop).countP
            (fun c => c.label == lbl) : Int) ≤ 1) →
        out.Perm [⟨0,0⟩, ⟨0,1⟩, ⟨1,2⟩]) :=
  ⟨by decide, subsample_const_size_stratified_bound takeChooser
    takeChooser_valid [⟨0,0⟩, ⟨0,1⟩, ⟨1,2⟩] 1 (by decide)⟩

/-- Claim C3 (no duplication): when a label's original count is at least
the nonnegative target size, the indices drawn for that label by the
subsampling loop are exactly `size` many, pairwise distinct, and each
points at an input item carrying that label — the draw is without
replacement. -/
theorem subsample_chosen_no_duplication
    (choose : List Nat → Nat → List Nat) (hch : ValidChooser choose)
    (crops : List Crop) (size : Int) (hs : 0 ≤ size) (lbl : Int)
    (hcount : size ≤ (crops.countP (fun c => c.label == lbl) : Int)) :
    (chosenIdxs choose (crops.map (·.label)) size.toNat lbl).length
        = size.toNat ∧
    (chosenIdxs choose (crops.map (·.label)) size.toNat lbl).Nodup ∧
    ∀ i ∈ chosenIdxs choose (crops.map (·.label)) size.toNat lbl,
      ∃ c, crops[i]? = some c ∧ c.label = lbl := by
  rcases chosenIdxs_spec choose hch (crops.map (·.label)) size.toNat lbl with
    ⟨hlen, hnd, _⟩
  refine ⟨?_, hnd, ?_⟩
  · rw [hlen, countP_label]
    omega
  · intro i hi
    rcases getElem?_of_mem_findIdxs
      (subsampleSeg_sub choose hch crops size.toNat lbl i hi) with ⟨c, hc, hp⟩
    exact ⟨c, hc, eq_of_beq hp⟩

theorem subsample_chosen_no_duplication_witness :
    ((0:Int) ≤ 1 ∧
      (1:Int) ≤ (([⟨0,0⟩, ⟨0,1⟩] : List Crop).countP
        (fun c => c.label == 0) : Int)) ∧
    ((chosenIdxs takeChooser (([⟨0,0⟩, ⟨0,1⟩] : List Crop).map (·.label))
        (1:Int).toNat 0).length = (1:Int).toNat ∧
      (chosenIdxs takeChooser (([⟨0,0⟩, ⟨0,1⟩] : List Crop).map (·.label))
        (1:Int).toNat 0).Nodup ∧
      ∀ i ∈ chosenIdxs takeChooser
          (([⟨0,0⟩, ⟨0,1⟩] : List Crop).map (·.label)) (1:Int).toNat 0,
        ∃ c, ([⟨0,0⟩, ⟨0,1⟩] : List Crop)[i]? = some c ∧ c.label = 0) :=
  ⟨⟨by decide, by decide⟩,
    subsample_chosen_no_duplication takeChooser takeChooser_valid
      [⟨0,0⟩, ⟨0,1⟩] 1 (by decide) 0 (by decide)⟩

theorem subsampleLabel_error (choose : List Nat → Nat → List Nat)
    (crops : List Crop) (labels : List Int) {size : Int} (hneg : size < 0)
    (lbl : Int) :
    subsampleLabel choose crops labels size lbl
      = .error "ValueError: negative dimensions are not allowed" := by
  simp only [subsampleLabel]
  have h : ¬ ((findIdxs (fun x => x == lbl) labels).length : Int) < size := by
    omega
  rw [if_neg h, if_pos hneg]

theorem mapM_error_of_forall_ne_nil {α β : Type} (f : α → Except String β)
    (e : String) (l : List α) (hne : l ≠ []) (h : ∀ a ∈ l, f a = .error e) :
    l.mapM f = .error e := by
  cases l with
  | nil => exact absurd rfl hne
  | cons a l =>
    rw [List.mapM_cons, h a (by simp)]
    rfl

/-- Claim C4 counterexample: the claim asserts that every `size ≤ 0` yields
an empty result without an error; on the one-item population with a
negative size the code instead raises numpy's `ValueError` (the
`count < size` guard is false for a negative size, so
`np.random.choice(indices, size, replace=False)` is reached). -/
theorem subsample_const_size_negative_size_error :
    subsample_const_size takeChooser [⟨0,0⟩] (-1)
      = .error "ValueError: negative dimensions are not allowed" := by
  rfl

/-- Claim C4 amended: `size = 0` retains zero items per class and returns an
empty population without error, for any population; but a strictly
negative `size` on a non-empty population raises `ValueError` from
`np.random.choice`. -/
theorem subsample_const_size_degenerate_size
    (choose : List Nat → Nat → List Nat) (hch : ValidChooser choose)
    (crops : List Crop) :
    subsample_const_size choose crops 0 = .ok [] ∧
    (crops ≠ [] → ∀ size : Int, size < 0 →
      subsample_const_size choose crops size
        = .error "ValueError: negative dimensions are not allowed") := by
  constructor
  · rw [subsample_const_size_eq_ok choose crops (le_refl 0)]
    have hout : subsampleOut choose crops (0:Int).toNat = [] := by
      unfold subsampleOut
      rw [List.flatten_eq_nil_iff]
      intro seg hseg
      rcases List.mem_map.1 hseg with ⟨lbl, _, rfl⟩
      have hc : (chosenIdxs choose (crops.map (·.label)) (0:Int).toNat
          lbl).length = 0 := by
        rcases chosenIdxs_spec choose hch (crops.map (·.label)) (0:Int).toNat
          lbl with ⟨hlen, _, _⟩
        rw [hlen]
        omega
      unfold subsampleSeg
      rw [List.length_eq_zero.1 hc]
      rfl
    rw [hout]
  · intro hne size hneg
    have hlne : npUnique (crops.map (·.label)) ≠ [] := by
      cases crops with
      | nil => exact absurd rfl hne
      | cons c cs =>
        intro hnil
        have hm : c.label ∈ npUnique ((c :: cs).map (·.label)) :=
          mem_npUnique.2 (by simp)
        rw [hnil] at hm
        simp at hm
    simp only [subsample_const_size]
    rw [mapM_error_of_forall_ne_nil _ _ _ hlne
      (fun lbl _ => subsampleLabel_error choose crops _ hneg lbl)]
    rfl

theorem subsample_const_size_degenerate_size_witness :
    (subsample_const_size takeChooser [⟨0,0⟩] 0 = .ok [] ∧
      (([⟨0,0⟩] : List Crop) ≠ [] → ∀ size : Int, size < 0 →
        subsample_const_size takeChooser [⟨0,0⟩] size
          = .error "ValueError: negative dimensions are not allowed")) :=
  subsample_const_size_degenerate_size takeChooser takeChooser_valid [⟨0,0⟩]

/-- `hierarchy_match[str(l)]`: the category of one label, looked up by the
label's string representation; a missing entry is Python's `KeyError`. -/
def lookupCategory (m : List (String × Int)) (l : Int) : Except String Int :=
  match m.lookup (toString l) with
  | some c => .ok c
  | none => .error ("KeyError: " ++ toString l)

/-- The category labels used by `define_sampler`: the raw item labels when
`hierarchy_match is None`, otherwise `hierarchy_match[str(l)]` per item. -/
def catLabels (crops : List Crop) (hm : Option (List (String × Int))) :
    Except String (List Int) :=
  match hm with
  | none => .ok (crops.map (·.label))
  | some m => (crops.map (·.label)).mapM (lookupCategory m)

/-- `class_sample_count[t]`: number of items of category `t`. -/
def catCount (cl : List Int) (t : Int) : Nat := cl.countP (fun x => x == t)

/-- `sum(class_sample_count.values())` over the distinct categories. -/
def catTotal (cl : List Int) : Nat := ((npUnique cl).map (catCount cl)).sum

/-- `weight[t] = sum(class_sample_count.values()) / class_sample_count[t]`,
with Python's true division taken over exact rationals. -/
def catWeight (cl : List Int) (t : Int) : ℚ :=
  (catTotal cl : ℚ) / (catCount cl t : ℚ)

/-- `define_sampler(crops, hierarchy_match)`: the per-item draw-weight
vector `samples_weight` and the draw count `len(samples_weight)` handed
to `WeightedRandomSampler`. -/
def define_sampler (crops : List Crop) (hm : Option (List (String × Int))) :
    Except String (List ℚ × Nat) := do
  let labels ← catLabels crops hm
  let samples_weight := labels.map (catWeight labels)
  return (samples_weight, samples_weight.length)

theorem sum_map_add {M : Type} [AddCommMonoid M] (f g : Int → M)
    (L : List Int) :
    (L.map (fun t => f t + g t)).sum = (L.map f).sum + (L.map g).sum := by
  induction L with
  | nil => simp
  | cons a L ih =>
    simp only [List.map_cons, List.sum_cons, ih]
    rw [add_add_add_comm]

theorem sum_map_ite_zero {M : Type} [AddCommMonoid M] (f : Int → M)
    (x : Int) :
    ∀ L : List Int, L.Nodup → x ∈ L →
      (L.map (fun t => if x == t then f t else 0)).sum = f x := by
  intro L
  induction L with
  | nil => intro _ h; simp at h
  | cons a L ih =>
    intro hnd hmem
    rw [List.nodup_cons] at hnd
    simp only [List.map_cons, List.sum_cons]
    rcases List.mem_cons.1 hmem with rfl | hmem
    · have hz : (L.map (fun t => if x == t then f t else 0)).sum = 0 := by
        apply List.sum_eq_zero
        intro y hy
        rcases List.mem_map.1 hy with ⟨t, ht, rfl⟩
        have hne : ¬ ((x == t) = true) :=
          fun hbt => hnd.1 ((eq_of_beq hbt) ▸ ht)
        simp [hne]
      rw [if_pos (beq_self_eq_true x), hz, add_zero]
    · have hne : ¬ ((x == a) = true) :=
        fun hbt => hnd.1 ((eq_of_beq hbt) ▸ hmem)
      rw [if_neg hne, ih hnd.2 hmem, zero_add]

/-- Grouping a sum over items by distinct category: the contribution of
category `t` is its count times the per-item value. -/
theorem sum_map_eq_sum_count_smul {M : Type} [AddCommMonoid M]
    (f : Int → M) :
    ∀ (cl L : List Int), L.Nodup → (∀ x ∈ cl, x ∈ L) →
      (cl.map f).sum = (L.map (fun t => catCount cl t • f t)).sum := by
  intro cl
  induction cl with
  | nil =>
    intro L _ _
    simp only [List.map_nil, List.sum_nil]
    symm
    apply List.sum_eq_zero
    intro y hy
    rcases List.mem_map.1 hy with ⟨t, _, rfl⟩
    simp [catCount]
  | cons x cl ih =>
    intro L hnd hsub
    have hx : x ∈ L := hsub x (by simp)
    simp only [List.map_cons, List.sum_cons]
    rw [ih L hnd (fun y hy => hsub y (by simp [hy]))]
    have hfun : (fun t => catCount (x :: cl) t • f t)
        = fun t => (if x == t then f t else 0) + catCount cl t • f t := by
      funext t
      have hcount : catCount (x :: cl) t
          = (if (x == t) = true then 1 else 0) + catCount cl t := by
        simp only [catCount, List.countP_cons]
        by_cases hxt : (x == t) = true
        · simp [hxt]
          omega
        · simp [hxt]
      rw [hcount]
      by_cases hxt : (x == t) = true
      · rw [if_pos hxt, if_pos hxt, add_nsmul, one_nsmul]
      · simp [hxt]
    rw [hfun, sum_map_add, sum_map_ite_zero f x L hnd hx]

theorem length_eq_sum_ones (cl : List Int) :
    (cl.map (fun _ => (1:Nat))).sum = cl.length := by
  induction cl with
  | nil => rfl
  | cons a cl ih =>
    rw [List.map_cons, List.sum_cons, ih, List.length_cons]
    omega

/-- `sum(class_sample_count.values())` is the total number of items. -/
theorem catTotal_eq_length (cl : List Int) : catTotal cl = cl.length := by
  have h := sum_map_eq_sum_count_smul (fun _ => (1:Nat)) cl (npUnique cl)
    (nodup_npUnique cl) (fun x hx => mem_npUnique.2 hx)
  rw [length_eq_sum_ones] at h
  have hfun : (fun t => catCount cl t • (1:Nat)) = fun t => catCount cl t :=
    funext (fun t => by simp)
  rw [hfun] at h
  exact h.symm ▸ rfl

theorem mapM_ok_length {α β : Type} (f : α → Except String β) :
    ∀ (l : List α) (bl : List β), l.mapM f = .ok bl → bl.length = l.length := by
  intro l
  induction l with
  | nil =>
    intro bl h
    have h' : Except.ok ([] : List β) = Except.ok bl := h
    injection h' with h''
    rw [← h'']
    rfl
  | cons a l ih =>
    intro bl h
    rw [List.mapM_cons] at h
    cases hfa : f a with
    | error e =>
      rw [hfa] at h
      exact Except.noConfusion (show Except.error e = Except.ok bl from h)
    | ok b =>
      rw [hfa] at h
      cases hml : l.mapM f with
      | error e =>
        rw [hml] at h
        exact Except.noConfusion (show Except.error e = Except.ok bl from h)
      | ok xs =>
        rw [hml] at h
        have h' : Except.ok (b :: xs) = Except.ok bl := h
        injection h' with h''
        rw [← h'', List.length_cons, ih xs hml, List.length_cons]

theorem catLabels_length (crops : List Crop)
    (hm : Option (List (String × Int))) (cl : List Int)
    (h : catLabels crops hm = .ok cl) : cl.length = crops.length := by
  cases hm with
  | none =>
    have h' : Except.ok (crops.map (·.label)) = Except.ok cl := h
    injection h' with h''
    rw [← h'', List.length_map]
  | some m =>
    have h2 : (crops.map (·.label)).mapM (lookupCategory m) = .ok cl := h
    have hlen := mapM_ok_length (lookupCategory m) (crops.map (·.label)) cl h2
    rw [List.length_map] at hlen
    exact hlen

theorem define_sampler_ok (crops : List Crop)
    (hm : Option (List (String × Int))) (cl : List Int)
    (h : catLabels crops hm = .ok cl) :
    define_sampler crops hm
      = .ok (cl.map (catWeight cl), (cl.map (catWeight cl)).length) := by
  simp only [define_sampler, h]
  rfl

theorem catCount_pos {cl : List Int} {c : Int} (h : c ∈ cl) :
    0 < catCount cl c := by
  simp only [catCount]
  rw [List.countP_pos_iff]
  exact ⟨c, h, by simp⟩

theorem catCount_mul_catWeight {cl : List Int} {c : Int} (h : c ∈ cl) :
    (catCount cl c : ℚ) * catWeight cl c = (cl.length : ℚ) := by
  have hpos := catCount_pos h
  have hne : (catCount cl c : ℚ) ≠ 0 := by
    exact_mod_cast Nat.pos_iff_ne_zero.1 hpos
  unfold catWeight
  rw [mul_comm, div_mul_cancel₀ _ hne, catTotal_eq_length]

/-- Claim C2 (weighting equal-expectation invariant): whenever the category
labels of a population resolve — in particular whenever `define_sampler`
succeeds — every item of a category receives the identical weight of its
category, and for any two present categories `c1`, `c2`,
`count[c1]*weight[c1] == count[c2]*weight[c2] == total item count`. -/
theorem define_sampler_equal_expectation (crops : List Crop)
    (hm : Option (List (String × Int))) (cl : List Int)
    (h : catLabels crops hm = .ok cl) :
    define_sampler crops hm
      = .ok (cl.map (catWeight cl), (cl.map (catWeight cl)).length) ∧
    ∀ c1 ∈ cl, ∀ c2 ∈ cl,
      (catCount cl c1 : ℚ) * catWeight cl c1
          = (catCount cl c2 : ℚ) * catWeight cl c2 ∧
      (catCount cl c1 : ℚ) * catWeight cl c1 = (crops.length : ℚ) := by
  refine ⟨define_sampler_ok crops hm cl h, ?_⟩
  intro c1 h1 c2 h2
  rw [catCount_mul_catWeight h1, catCount_mul_catWeight h2,
    catLabels_length crops hm cl h]
  exact ⟨rfl, rfl⟩

theorem define_sampler_equal_expectation_witness :
    (catLabels [⟨0,0⟩, ⟨1,1⟩] none = .ok [0, 1]) ∧
    (define_sampler [⟨0,0⟩, ⟨1,1⟩] none
      = .ok (([0,1] : List Int).map (catWeight [0,1]),
          (([0,1] : List Int).map (catWeight [0,1])).length) ∧
    ∀ c1 ∈ ([0,1] : List Int), ∀ c2 ∈ ([0,1] : List Int),
      (catCount [0,1] c1 : ℚ) * catWeight [0,1] c1
          = (catCount [0,1] c2 : ℚ) * catWeight [0,1] c2 ∧
      (catCount [0,1] c1 : ℚ) * catWeight [0,1] c1
        = (([⟨0,0⟩, ⟨1,1⟩] : List Crop).length : ℚ)) :=
  ⟨rfl, define_sampler_equal_expectation [⟨0,0⟩, ⟨1,1⟩] none [0, 1] rfl⟩

theorem countP_replicate (p : Int → Bool) (n : Nat) (a : Int) :
    (List.replicate n a).countP p = if p a then n else 0 := by
  induction n with
  | zero => simp
  | succ n ih =>
    rw [List.replicate_succ, List.countP_cons, ih]
    by_cases h : p a
    · simp [h]
    · simp [h]

/-- Claim C5 (identity-map weighting): with `hierarchy_match = None` every
label is its own category, each item of label `l` gets weight
`total_item_count / count(l)`, and on 100 items split 80/20 between
labels 0 and 1 the weights are `100/80 = 1.25` and `100/20 = 5.0`. -/
theorem define_sampler_identity_map :
    (∀ crops : List Crop,
      define_sampler crops none
        = .ok ((crops.map (·.label)).map (catWeight (crops.map (·.label))),
            ((crops.map (·.label)).map
              (catWeight (crops.map (·.label)))).length)) ∧
    (∀ (crops : List Crop) (lbl : Int),
      catWeight (crops.map (·.label)) lbl
        = (crops.length : ℚ)
            / ((crops.map (·.label)).countP (fun x => x == lbl) : ℚ)) ∧
    define_sampler (List.replicate 80 ⟨0,0⟩ ++ List.replicate 20 ⟨1,0⟩) none
      = .ok (List.replicate 80 ((5:ℚ)/4) ++ List.replicate 20 (5:ℚ), 100) := by
  refine ⟨?_, ?_, ?_⟩
  · intro crops
    exact define_sampler_ok crops none (crops.map (·.label)) (by rfl)
  · intro crops lbl
    unfold catWeight
    rw [catTotal_eq_length, List.length_map]
    rfl
  · have h := define_sampler_ok
      (List.replicate 80 (⟨0,0⟩ : Crop) ++ List.replicate 20 (⟨1,0⟩ : Crop))
      none
      ((List.replicate 80 (⟨0,0⟩ : Crop)
        ++ List.replicate 20 (⟨1,0⟩ : Crop)).map (·.label)) (by rfl)
    rw [h]
    have hcl : ((List.replicate 80 (⟨0,0⟩ : Crop)
        ++ List.replicate 20 (⟨1,0⟩ : Crop)).map (·.label))
        = List.replicate 80 (0:Int) ++ List.replicate 20 (1:Int) := by
      simp
    rw [hcl]
    have hc0 : catCount (List.replicate 80 (0:Int)
        ++ List.replicate 20 (1:Int)) 0 = 80 := by
      simp [catCount, List.countP_append, countP_replicate]
    have hc1 : catCount (List.replicate 80 (0:Int)
        ++ List.replicate 20 (1:Int)) 1 = 20 := by
      simp [catCount, List.countP_append, countP_replicate]
    have htot : catTotal (List.replicate 80 (0:Int)
        ++ List.replicate 20 (1:Int)) = 100 := by
      rw [catTotal_eq_length]
      simp
    have hw0 : catWeight (List.replicate 80 (0:Int)
        ++ List.replicate 20 (1:Int)) 0 = (5:ℚ)/4 := by
      unfold catWeight
      rw [htot, hc0]
      norm_num
    have hw1 : catWeight (List.replicate 80 (0:Int)
        ++ List.replicate 20 (1:Int)) 1 = (5:ℚ) := by
      unfold catWeight
      rw [htot, hc1]
      norm_num
    rw [List.map_append, List.map_replicate, List.map_replicate, hw0, hw1]
    simp

/-- Claim C6 (missing-category failure): with a supplied `hierarchy_match`
map, `define_sampler` raises iff some item's label, under its string
representation, has no entry in the map (`KeyError`); when every
stringified label has an entry, weighting succeeds using the mapped
categories. -/
theorem define_sampler_missing_category (crops : List Crop)
    (m : List (String × Int)) :
    ((∃ e, define_sampler crops (some m) = .error e) ↔
      ∃ c ∈ crops, m.lookup (toString c.label) = none) ∧
    ((∀ c ∈ crops, ∃ v, m.lookup (toString c.label) = some v) →
      ∃ cl, catLabels crops (some m) = .ok cl ∧
        cl = crops.map (fun c => (m.lookup (toString c.label)).getD 0) ∧
        define_sampler crops (some m)
          = .ok (cl.map (catWeight cl), (cl.map (catWeight cl)).length)) := by
  have hallok : (∀ c ∈ crops, ∃ v, m.lookup (toString c.label) = some v) →
      catLabels crops (some m)
        = .ok ((crops.map (·.label)).map
            (fun l => (m.lookup (toString l)).getD 0)) := by
    intro hall
    show (crops.map (·.label)).mapM (lookupCategory m) = _
    apply mapM_ok_of_forall
    intro l hl
    rcases List.mem_map.1 hl with ⟨c, hc, rfl⟩
    rcases hall c hc with ⟨v, hv⟩
    simp [lookupCategory, hv]
  constructor
  · constructor
    · rintro ⟨e, he⟩
      by_contra hno
      push_neg at hno
      have hall : ∀ c ∈ crops, ∃ v, m.lookup (toString c.label) = some v := by
        intro c hc
        cases hlk : m.lookup (toString c.label) with
        | none => exact absurd hlk (hno c hc)
        | some v => exact ⟨v, rfl⟩
      have hok := define_sampler_ok crops (some m) _ (hallok hall)
      rw [hok] at he
      exact Except.noConfusion he
    · rintro ⟨c, hc, hnone⟩
      have herr : ∃ e, catLabels crops (some m) = .error e := by
        show ∃ e, (crops.map (·.label)).mapM (lookupCategory m) = .error e
        apply mapM_error_of_exists
        refine ⟨c.label, List.mem_map.2 ⟨c, hc, rfl⟩,
          "KeyError: " ++ toString c.label, ?_⟩
        simp [lookupCategory, hnone]
      rcases herr with ⟨e, he⟩
      refine ⟨e, ?_⟩
      simp only [define_sampler, he]
      rfl
  · intro hall
    refine ⟨_, hallok hall, ?_, define_sampler_ok crops (some m) _ (hallok hall)⟩
    rw [List.map_map]
    rfl

theorem define_sampler_missing_category_witness :
    ((∃ e, define_sampler [⟨0,0⟩] (some [("1", 5)]) = .error e) ∧
      ∃ c ∈ ([⟨0,0⟩] : List Crop),
        ([("1", 5)] : List (String × Int)).lookup (toString c.label) = none) ∧
    (∃ cl, catLabels [⟨0,0⟩] (some [("0", 7)]) = .ok cl ∧
      cl = ([⟨0,0⟩] : List Crop).map
        (fun c => (([("0", 7)] : List (String × Int)).lookup
          (toString c.label)).getD 0) ∧
      define_sampler [⟨0,0⟩] (some [("0", 7)])
        = .ok (cl.map (catWeight cl), (cl.map (catWeight cl)).length)) :=
  ⟨⟨(define_sampler_missing_category [⟨0,0⟩] [("1", 5)]).1.2
      ⟨⟨0,0⟩, by simp, rfl⟩,
    ⟨⟨0,0⟩, by simp, rfl⟩⟩,
  (define_sampler_missing_category [⟨0,0⟩] [("0", 7)]).2
    (fun c hc => by
      rcases List.mem_singleton.1 hc with rfl
      exact ⟨7, rfl⟩)⟩

theorem sum_map_const_mem {M : Type} [AddCommMonoid M] (v : Int → M)
    (c : M) :
    ∀ L : List Int, (∀ t ∈ L, v t = c) → (L.map v).sum = L.length • c := by
  intro L
  induction L with
  | nil => simp
  | cons a L ih =>
    intro h
    rw [List.map_cons, List.sum_cons, h a (by simp),
      ih (fun t ht => h t (by simp [ht])), List.length_cons, succ_nsmul]
    exact add_comm c _

/-- Claim C10 (weight-sum identity): under exact arithmetic the sum of all
item weights produced by `define_sampler` equals the total item count
times the number of distinct categories present, since each category
contributes `count[c] * (total / count[c]) = total`. -/
theorem define_sampler_weight_sum (crops : List Crop)
    (hm : Option (List (String × Int))) (cl : List Int)
    (h : catLabels crops hm = .ok cl) :
    ∃ w n, define_sampler crops hm = .ok (w, n) ∧
      w.sum = (crops.length : ℚ) * ((npUnique cl).length : ℚ) := by
  refine ⟨cl.map (catWeight cl), (cl.map (catWeight cl)).length,
    define_sampler_ok crops hm cl h, ?_⟩
  rw [sum_map_eq_sum_count_smul (catWeight cl) cl (npUnique cl)
    (nodup_npUnique cl) (fun x hx => mem_npUnique.2 hx)]
  rw [sum_map_const_mem _ ((cl.length : ℚ))
    _ (fun t ht => by
      rw [nsmul_eq_mul]
      exact catCount_mul_catWeight (mem_npUnique.1 ht))]
  rw [nsmul_eq_mul, catLabels_length crops hm cl h, mul_comm]

theorem define_sampler_weight_sum_witness :
    ∃ w n, define_sampler [⟨0,0⟩, ⟨1,1⟩] none = .ok (w, n) ∧
      w.sum = (([⟨0,0⟩, ⟨1,1⟩] : List Crop).length : ℚ)
        * ((npUnique [0, 1]).length : ℚ) :=
  define_sampler_weight_sum [⟨0,0⟩, ⟨1,1⟩] none [0, 1] rfl

/-- A cell value of a metric table. -/
inductive Val where
  | str (s : String)
  | nat (n : Nat)
  | rat (q : ℚ)
deriving DecidableEq, Repr

/-- A single-row table: named columns in order, one value each. -/
structure Row where
  cols : List (String × Val)
deriving DecidableEq, Repr

/-- `numparams(model)`: the sum of element counts over all model
parameters (the model is abstracted to its per-parameter element
counts). -/
def numparams (model : List Nat) : Nat := model.sum

/-- `df[name] = v` on a single-row frame: overwrite the column when it
exists, append it otherwise. -/
def setCol (r : Row) (name : String) (v : Val) : Row :=
  if r.cols.any (fun p => p.1 == name) then
    ⟨r.cols.map (fun p => if p.1 == name then (p.1, v) else p)⟩
  else ⟨r.cols ++ [(name, v)]⟩

/-- `pd.concat([r1, r2], axis=1)` on two single-row frames. -/
def hconcat (r1 r2 : Row) : Row := ⟨r1.cols ++ r2.cols⟩

/-- Column access on a row (first matching column). -/
def getCol (r : Row) (name : String) : Option Val := r.cols.lookup name

/-- `get_metrics(args, key, loader, model)`.  The two external calls to
`eval_average_metrics_wstd` (module `lee/`, not under `src/`) are
modelled from the spec: each returns one aggregated single-row table,
passed in here as `leeRow` (continuous family) and `discRow` (discrete
family).  The rows are merged column-wise with the continuous-family
columns first, then the `dataset`, `model` and `params` metadata columns
are stamped. -/
def get_metrics (modelname key : String) (leeRow discRow : Row)
    (model : List Nat) : Row :=
  setCol (setCol (setCol (hconcat leeRow discRow) "dataset" (.str key))
    "model" (.str modelname)) "params" (.nat (numparams model))

theorem lookup_cons_self {l : List (String × Val)} {name : String}
    {v : Val} : ((name, v) :: l).lookup name = some v := by
  simp [List.lookup]

theorem lookup_map_overwrite (name : String) (v : Val) :
    ∀ l : List (String × Val), l.any (fun p => p.1 == name) = true →
      (l.map (fun p => if p.1 == name then (p.1, v) else p)).lookup name
        = some v := by
  intro l
  induction l with
  | nil => intro h; simp at h
  | cons p l ih =>
    intro h
    by_cases hp : (p.1 == name) = true
    · have heq : name = p.1 := (eq_of_beq hp).symm
      simp only [List.map_cons, if_pos hp]
      subst heq
      exact lookup_cons_self
    · have hname : (name == p.1) = false := by
        cases hb : (name == p.1) with
        | false => rfl
        | true => exact absurd (by rw [eq_of_beq hb]; exact beq_self_eq_true p.1) hp
      have htail : l.any (fun p => p.1 == name) = true := by
        rw [List.any_cons] at h
        simpa [hp] using h
      simp only [List.map_cons, if_neg hp]
      rw [List.lookup, hname]
      exact ih htail

theorem lookup_append_of_forall_ne {l1 l2 : List (String × Val)}
    {name : String} (h : ∀ p ∈ l1, (name == p.1) = false) :
    (l1 ++ l2).lookup name = l2.lookup name := by
  induction l1 with
  | nil => rfl
  | cons p l1 ih =>
    rw [List.cons_append, List.lookup, h p (by simp)]
    exact ih (fun q hq => h q (by simp [hq]))

theorem getCol_setCol_self (r : Row) (name : String) (v : Val) :
    getCol (setCol r name v) name = some v := by
  unfold setCol getCol
  by_cases h : r.cols.any (fun p => p.1 == name) = true
  · rw [if_pos h]
    exact lookup_map_overwrite name v r.cols h
  · rw [if_neg h]
    show (r.cols ++ [(name, v)]).lookup name = some v
    have hne : ∀ p ∈ r.cols, (name == p.1) = false := by
      intro p hp
      cases hb : (name == p.1) with
      | false => rfl
      | true =>
        exfalso
        apply h
        rw [List.any_eq_true]
        exact ⟨p, hp, by rw [← eq_of_beq hb]; exact beq_self_eq_true name⟩
    rw [lookup_append_of_forall_ne hne]
    exact lookup_cons_self

theorem getCol_setCol_other (r : Row) {name name2 : String} (v : Val)
    (hne : name ≠ name2) :
    getCol (setCol r name2 v) name = getCol r name := by
  unfold setCol getCol
  have hnb : (name == name2) = false := by
    cases hb : (name == name2) with
    | false => rfl
    | true => exact absurd (eq_of_beq hb) hne
  by_cases h : r.cols.any (fun p => p.1 == name2) = true
  · rw [if_pos h]
    show (r.cols.map (fun p => if p.1 == name2 then (p.1, v) else p)).lookup
        name = r.cols.lookup name
    induction r.cols with
    | nil => rfl
    | cons p l ih =>
      by_cases hp : (p.1 == name2) = true
      · have hkey : (name == p.1) = false := by
          cases hb2 : (name == p.1) with
          | false => rfl
          | true =>
            exfalso
            exact hne (by rw [eq_of_beq hb2, eq_of_beq hp])
        simp only [List.map_cons, if_pos hp]
        rw [List.lookup, List.lookup, hkey]
        exact ih
      · simp only [List.map_cons, if_neg hp]
        cases hb2 : (name == p.1) with
        | true => rw [List.lookup, List.lookup, hb2]
        | false =>
          rw [List.lookup, List.lookup, hb2]
          exact ih
  · rw [if_neg h]
    show (r.cols ++ [(name2, v)]).lookup name = r.cols.lookup name
    induction r.cols with
    | nil =>
      show ([(name2, v)]).lookup name = none
      rw [List.lookup, hnb]
      rfl
    | cons p l ih =>
      cases hb2 : (name == p.1) with
      | true => rw [List.cons_append, List.lookup, List.lookup, hb2]
      | false =>
        rw [List.cons_append, List.lookup, List.lookup, hb2]
        exact ih

theorem any_key_iff (l : List (String × Val)) (name : String) :
    l.any (fun p => p.1 == name) = true ↔ name ∈ l.map Prod.fst := by
  rw [List.any_eq_true]
  constructor
  · rintro ⟨p, hp, hb⟩
    exact List.mem_map.2 ⟨p, hp, eq_of_beq hb⟩
  · intro h
    rcases List.mem_map.1 h with ⟨p, hp, hfst⟩
    exact ⟨p, hp, by rw [hfst]; exact beq_self_eq_true name⟩

theorem setCol_append (r : Row) (name : String) (v : Val)
    (h : name ∉ r.cols.map Prod.fst) :
    setCol r name v = ⟨r.cols ++ [(name, v)]⟩ := by
  unfold setCol
  rw [if_neg (fun hany => h ((any_key_iff r.cols name).1 hany))]

/-- Claim C7 (per-dataset row merge): `get_metrics` yields one single-row
table whose columns are the continuous-family (Lie-derivative) metric
columns first, then the discrete-family metric columns (`M + N` metric
columns in total), followed by exactly the three metadata columns
`dataset` = the given key, `model` = the model identifier and `params` =
the summed parameter element counts.  Column-name collisions with the
metadata names are excluded, as the spec leaves them undefined. -/
theorem get_metrics_merge (modelname key : String) (leeRow discRow : Row)
    (model : List Nat)
    (hd : "dataset" ∉ leeRow.cols.map Prod.fst ++ discRow.cols.map Prod.fst)
    (hmo : "model" ∉ leeRow.cols.map Prod.fst ++ discRow.cols.map Prod.fst)
    (hpa : "params" ∉ leeRow.cols.map Prod.fst ++ discRow.cols.map Prod.fst) :
    (get_metrics modelname key leeRow discRow model).cols.map Prod.fst
      = (leeRow.cols.map Prod.fst ++ discRow.cols.map Prod.fst)
        ++ ["dataset", "model", "params"] ∧
    (get_metrics modelname key leeRow discRow model).cols.length
      = (leeRow.cols.length + discRow.cols.length) + 3 ∧
    getCol (get_metrics modelname key leeRow discRow model) "dataset"
      = some (.str key) ∧
    getCol (get_metrics modelname key leeRow discRow model) "model"
      = some (.str modelname) ∧
    getCol (get_metrics modelname key leeRow discRow model) "params"
      = some (.nat (numparams model)) := by
  have hbase : (hconcat leeRow discRow).cols.map Prod.fst
      = leeRow.cols.map Prod.fst ++ discRow.cols.map Prod.fst := by
    simp [hconcat]
  have h1 : setCol (hconcat leeRow discRow) "dataset" (.str key)
      = ⟨(hconcat leeRow discRow).cols ++ [("dataset", .str key)]⟩ :=
    setCol_append _ _ _ (by rw [hbase]; exact hd)
  have hn1 : (setCol (hconcat leeRow discRow) "dataset"
        (.str key)).cols.map Prod.fst
      = (leeRow.cols.map Prod.fst ++ discRow.cols.map Prod.fst)
        ++ ["dataset"] := by
    rw [h1]
    show ((hconcat leeRow discRow).cols ++ [("dataset", _)]).map Prod.fst = _
    rw [List.map_append, hbase]
    rfl
  have h2 : setCol (setCol (hconcat leeRow discRow) "dataset" (.str key))
        "model" (.str modelname)
      = ⟨(setCol (hconcat leeRow discRow) "dataset" (.str key)).cols
          ++ [("model", .str modelname)]⟩ :=
    setCol_append _ _ _ (by
      rw [hn1]
      intro hmem
      rcases List.mem_append.1 hmem with hmem | hmem
      · exact hmo hmem
      · simp at hmem)
  have hn2 : (setCol (setCol (hconcat leeRow discRow) "dataset" (.str key))
        "model" (.str modelname)).cols.map Prod.fst
      = ((leeRow.cols.map Prod.fst ++ discRow.cols.map Prod.fst)
          ++ ["dataset"]) ++ ["model"] := by
    rw [h2]
    show ((setCol (hconcat leeRow discRow) "dataset"
        (.str key)).cols ++ [("model", _)]).map Prod.fst = _
    rw [List.map_append, hn1]
    rfl
  have h3 : get_metrics modelname key leeRow discRow model
      = ⟨(setCol (setCol (hconcat leeRow discRow) "dataset" (.str key))
          "model" (.str modelname)).cols ++ [("params", .nat (numparams model))]⟩ :=
    setCol_append _ _ _ (by
      rw [hn2]
      intro hmem
      rcases List.mem_append.1 hmem with hmem | hmem
      · rcases List.mem_append.1 hmem with hmem | hmem
        · exact hpa hmem
        · simp at hmem
      · simp at hmem)
  have hn3 : (get_metrics modelname key leeRow discRow model).cols.map
        Prod.fst
      = (leeRow.cols.map Prod.fst ++ discRow.cols.map Prod.fst)
        ++ ["dataset", "model", "params"] := by
    rw [h3]
    show ((setCol (setCol (hconcat leeRow discRow) "dataset" (.str key))
        "model" (.str modelname)).cols ++ [("params", _)]).map Prod.fst = _
    rw [List.map_append, hn2]
    simp
  refine ⟨hn3, ?_, ?_, ?_, ?_⟩
  · have hlen : ((get_metrics modelname key leeRow discRow
        model).cols.map Prod.fst).length
        = ((leeRow.cols.map Prod.fst ++ discRow.cols.map Prod.fst)
          ++ ["dataset", "model", "params"]).length := by rw [hn3]
    simp only [List.length_map, List.length_append] at hlen
    simp only [hlen, List.length_map]
    rfl
  · show getCol (setCol _ "params" _) "dataset" = _
    rw [getCol_setCol_other _ _ (show "dataset" ≠ "params" by decide),
      getCol_setCol_other _ _ (show "dataset" ≠ "model" by decide),
      getCol_setCol_self]
  · show getCol (setCol _ "params" _) "model" = _
    rw [getCol_setCol_other _ _ (show "model" ≠ "params" by decide),
      getCol_setCol_self]
  · exact getCol_setCol_self _ "params" _

theorem get_metrics_merge_witness :
    ((("dataset" ∉ (Row.mk [("lee_a", .rat 1)]).cols.map Prod.fst
        ++ (Row.mk [("disc_x", .rat 2)]).cols.map Prod.fst) ∧
      ("model" ∉ (Row.mk [("lee_a", .rat 1)]).cols.map Prod.fst
        ++ (Row.mk [("disc_x", .rat 2)]).cols.map Prod.fst) ∧
      ("params" ∉ (Row.mk [("lee_a", .rat 1)]).cols.map Prod.fst
        ++ (Row.mk [("disc_x", .rat 2)]).cols.map Prod.fst)) ∧
     ((get_metrics "resnet18" "train" ⟨[("lee_a", .rat 1)]⟩
          ⟨[("disc_x", .rat 2)]⟩ [3, 4]).cols.map Prod.fst
        = ((Row.mk [("lee_a", .rat 1)]).cols.map Prod.fst
            ++ (Row.mk [("disc_x", .rat 2)]).cols.map Prod.fst)
          ++ ["dataset", "model", "params"] ∧
      (get_metrics "resnet18" "train" ⟨[("lee_a", .rat 1)]⟩
          ⟨[("disc_x", .rat 2)]⟩ [3, 4]).cols.length
        = ((Row.mk [("lee_a", .rat 1)]).cols.length
            + (Row.mk [("disc_x", .rat 2)]).cols.length) + 3 ∧
      getCol (get_metrics "resnet18" "train" ⟨[("lee_a", .rat 1)]⟩
          ⟨[("disc_x", .rat 2)]⟩ [3, 4]) "dataset" = some (.str "train") ∧
      getCol (get_metrics "resnet18" "train" ⟨[("lee_a", .rat 1)]⟩
          ⟨[("disc_x", .rat 2)]⟩ [3, 4]) "model" = some (.str "resnet18") ∧
      getCol (get_metrics "resnet18" "train" ⟨[("lee_a", .rat 1)]⟩
          ⟨[("disc_x", .rat 2)]⟩ [3, 4]) "params"
        = some (.nat (numparams [3, 4])))) :=
  ⟨⟨by decide, by decide, by decide⟩,
    get_metrics_merge "resnet18" "train" ⟨[("lee_a", .rat 1)]⟩
      ⟨[("disc_x", .rat 2)]⟩ [3, 4] (by decide) (by decide) (by decide)⟩

/-- The vertical aggregation of `main`: `evaluated_metrics` collects one
`get_metrics` row per requested (dataset key, loader-results) pair and
`pd.concat(evaluated_metrics)` stacks them, one row per pair. -/
def aggregateReport (modelname : String) (model : List Nat)
    (results : List (String × Row × Row)) : List Row :=
  results.map (fun kr => get_metrics modelname kr.1 kr.2.1 kr.2.2 model)

/-- Claim C8 (report row count): over `K` requested (dataset key, loader)
pairs the final report has exactly `K` rows — one per pair, in order —
and each row's `dataset` column carries that pair's key. -/
theorem aggregateReport_rows (modelname : String) (model : List Nat)
    (results : List (String × Row × Row)) :
    (aggregateReport modelname model results).length = results.length ∧
    (aggregateReport modelname model results).map
        (fun r => getCol r "dataset")
      = results.map (fun kr => some (Val.str kr.1)) := by
  constructor
  · simp [aggregateReport]
  · unfold aggregateReport
    rw [List.map_map]
    apply List.map_congr_left
    intro kr _
    show getCol (get_metrics modelname kr.1 kr.2.1 kr.2.2 model) "dataset"
      = _
    show getCol (setCol _ "params" _) "dataset" = _
    rw [getCol_setCol_other _ _ (show "dataset" ≠ "params" by decide),
      getCol_setCol_other _ _ (show "dataset" ≠ "model" by decide),
      getCol_setCol_self]

/-- The three loaders constructed by `main` from the populations: the
balanced training loader (weighted sampler, training transform), the
training loader reused for evaluation (`train_loader_for_eval`, eval
transform, no shuffling), and the validation loader. -/
inductive LoaderTag where
  | balancedTrain
  | evalTrain
  | evalVal
deriving DecidableEq, Repr

/-- The loaders `main` constructs (source lines 124–131). -/
def mainLoaders : List LoaderTag :=
  [.balancedTrain, .evalTrain, .evalVal]

/-- The (dataset key, loader) pairs `main` actually passes to
`get_metrics` (source lines 161–164). -/
def mainEvaluated : List (String × LoaderTag) :=
  [("Imagenet_train", .balancedTrain), ("Imagenet_test", .evalVal)]

/-- Claim C9 counterexample: the claim says the pipeline runs over each of
the three loaders; in the code the eval-train loader
(`train_loader_for_eval`) is constructed but never passed to
`get_metrics`, so the pipeline does not run over it. -/
theorem main_not_all_loaders_evaluated :
    LoaderTag.evalTrain ∈ mainLoaders ∧
    LoaderTag.evalTrain ∉ mainEvaluated.map Prod.snd := by
  decide

/-- Claim C9 amended: the populations are turned into three loaders, but
the aggregation pipeline runs over exactly two of them — the
balanced-train loader (as `"Imagenet_train"`) and the eval-val loader
(as `"Imagenet_test"`); the eval-train loader is built yet never
evaluated, and every evaluated loader is among the constructed ones. -/
theorem main_loader_control_flow :
    mainLoaders.length = 3 ∧
    mainEvaluated.map Prod.snd = [.balancedTrain, .evalVal] ∧
    ∀ t ∈ mainEvaluated.map Prod.snd, t ∈ mainLoaders := by
  decide
